import Mathlib

/-!
Shallow embedding of the ewa-fs multi-tenant static-asset server
(`src/server.js`) and verification of its specification claims.

Conventions of the embedding:
* JS objects with string keys are association lists in insertion order
  (`objInsert` replaces in place, mirroring JS property assignment).
* `process.env` is an association list of environment variables.
* Header lookup is by exact (lowercase) header name, matching Express's
  case-insensitive normalisation.
* JS string truthiness (`!s`) is `jsTruthy` on `Option String`
  (absent or empty string is falsy).
* The on-disk file system is a list of directory entries (`Entry`);
  `Disk` maps an absolute directory path to its entry list.
* Machine integers never overflow here (statuses, counters), so `Nat`
  is used directly.
-/

namespace EwaFs

/-- JS truthiness of a possibly-absent string: `undefined` and `""` are falsy. -/
def jsTruthy : Option String → Bool
  | none => false
  | some s => s ≠ ""

/-- First-match lookup in a JS-object-as-association-list. -/
def objLookup {α : Type} (l : List (String × α)) (k : String) : Option α :=
  (l.find? (fun p => p.1 = k)).map (fun p => p.2)

/-- JS property assignment: replace the value in place if the key exists,
otherwise append (insertion order preserved, as for JS string keys). -/
def objInsert {α : Type} : List (String × α) → String → α → List (String × α)
  | [], k, v => [(k, v)]
  | (k', v') :: rest, k, v =>
    if k' = k then (k, v) :: rest else (k', v') :: objInsert rest k v

/-- `Object.values`: values in insertion order. -/
def objValues {α : Type} (l : List (String × α)) : List α :=
  l.map (fun p => p.2)

/-- Keys of a JS-object-as-association-list. -/
def objKeys {α : Type} (l : List (String × α)) : List String :=
  l.map (fun p => p.1)

/-- `String.split(",")` modelled on character lists. -/
def splitComma : List Char → List (List Char)
  | [] => [[]]
  | c :: rest =>
    match splitComma rest with
    | [] => [[]]
    | s :: ss => if c = ',' then [] :: s :: ss else (c :: s) :: ss

/-- `String.prototype.trim()`: strip whitespace from both ends. -/
def trimChars (l : List Char) : List Char :=
  ((l.dropWhile Char.isWhitespace).reverse.dropWhile Char.isWhitespace).reverse

/-- `name.toUpperCase()` (ASCII case map suffices for the model). -/
def upperName (s : String) : String :=
  ⟨s.data.map Char.toUpper⟩

/-- One registered tenant, as built by `loadClients`. -/
structure Client where
  name : String
  secret : String
  assetDir : String
deriving DecidableEq, Repr

/-- Environment-variable lookup (`process.env[k]`). -/
def envLookup (env : List (String × String)) (k : String) : Option String :=
  objLookup env k

/-- The parsed `CLIENTS` list: split on commas, trim, drop falsy (empty) names. -/
def parseClientList (env : List (String × String)) : List String :=
  ((splitComma ((envLookup env "CLIENTS").getD "").data).map
      (fun cs => (⟨trimChars cs⟩ : String))).filter (fun s => s ≠ "")

/-- The configured name misses an id or secret value
(absent or empty env var), the condition under which `loadClients` throws. -/
def lacksCredentials (env : List (String × String)) (name : String) : Bool :=
  !(jsTruthy (envLookup env (upperName name ++ "_ID"))) ||
    !(jsTruthy (envLookup env (upperName name ++ "_SECRET")))

/-- The id configured for a client name (empty when absent). -/
def idOf (env : List (String × String)) (name : String) : String :=
  (envLookup env (upperName name ++ "_ID")).getD ""

/-- The secret configured for a client name (empty when absent). -/
def secretOf (env : List (String × String)) (name : String) : String :=
  (envLookup env (upperName name ++ "_SECRET")).getD ""

/-- Loop of `loadClients`: fold the configured names into the registry object,
throwing (`Except.error`) on the first name with missing credentials. -/
def loadClientsAux (env : List (String × String)) (root : String) :
    List String → List (String × Client) → Except String (List (String × Client))
  | [], acc => .ok acc
  | name :: rest, acc =>
    let i := envLookup env (upperName name ++ "_ID")
    let s := envLookup env (upperName name ++ "_SECRET")
    if !(jsTruthy i) || !(jsTruthy s) then
      .error ("Missing credentials for client " ++ name)
    else
      loadClientsAux env root rest
        (objInsert acc (i.getD "")
          { name := name, secret := s.getD "", assetDir := root ++ "/" ++ name })

/-- `loadClients()`: build the registry keyed by client id from the
environment; raising is modelled by `Except.error`, which aborts startup. -/
def loadClients (env : List (String × String)) (root : String) :
    Except String (List (String × Client)) :=
  loadClientsAux env root (parseClientList env) []

/-- A directory entry as seen by `fs.readdirSync(..., { withFileTypes: true })`:
a regular file with its byte content, or a subdirectory with its entries
in directory order. -/
inductive Entry where
  | file (name : String) (content : List Nat)
  | dir (name : String) (sub : List Entry)
deriving Repr

/-- Name of a directory entry (`entry.name`). -/
def entryName : Entry → String
  | .file n _ => n
  | .dir n _ => n

/-- Names occurring in one directory, in order. -/
def entryNames (es : List Entry) : List String :=
  es.map entryName

/-- A name a real file system can give a single entry:
nonempty and free of the path separator. -/
def goodName (n : String) : Bool :=
  n ≠ "" && !(n.data.contains '/')

mutual

/-- Well-formedness of a single entry: good name, and a well-formed subtree
for directories. -/
def wfOne : Entry → Bool
  | .file n _ => goodName n
  | .dir n sub => goodName n && wellFormed sub

/-- Well-formedness of a directory tree as a real file system guarantees it:
entry names are good and unique within each directory, recursively. -/
def wellFormed : List Entry → Bool
  | [] => true
  | e :: rest =>
    wfOne e && !((entryNames rest).contains (entryName e)) && wellFormed rest

end

/-- Character allowed in the extension part of the key regex: `[^/.]`. -/
def extChar (c : Char) : Bool :=
  !(c = '.' || c = '/')

/-- The `replace(/\.[^/.]+$/, "")` step of the key computation: remove a final
dot followed by one or more non-dot non-slash characters, if present. -/
def stripExtList (l : List Char) : List Char :=
  match l.reverse.dropWhile extChar with
  | c :: rest =>
    if c = '.' && !(l.reverse.takeWhile extChar).isEmpty then rest.reverse else l
  | [] => l

/-- Extension stripping on strings, as the source regex performs it. -/
def stripExt (s : String) : String :=
  ⟨stripExtList s.data⟩

/-- `path.join` of a relative prefix with an entry name, with `/` separators
(the source normalises `\` to `/` immediately, so `/` is used throughout). -/
def joinRel (pre n : String) : String :=
  if pre = "" then n else pre ++ "/" ++ n

/-- Join path segments with `/`. -/
def joinSegs : List String → String
  | [] => ""
  | [n] => n
  | n :: rest => n ++ "/" ++ joinSegs rest

/-- The URL recorded for one walked file:
`{scheme}://{host}/assets/{clientName}/{relativePath}`. -/
def urlOf (protocol host clientName rel : String) : String :=
  protocol ++ "://" ++ host ++ "/assets/" ++ clientName ++ "/" ++ rel

mutual

/-- One step of `buildAssetIndex`'s `walk` on a single entry: record a file
under its stripped relative key, or descend into a subdirectory. -/
def walkOne (protocol host clientName : String) (pre : String)
    (acc : List (String × String)) : Entry → List (String × String)
  | .file n _ =>
    let rel := joinRel pre n
    objInsert acc (stripExt rel) (urlOf protocol host clientName rel)
  | .dir n sub => walkEntries protocol host clientName (joinRel pre n) acc sub

/-- `buildAssetIndex`'s `walk` over the entries of one directory, threading the
mutable result object through in iteration order. -/
def walkEntries (protocol host clientName : String) (pre : String)
    (acc : List (String × String)) : List Entry → List (String × String)
  | [] => acc
  | e :: rest =>
    walkEntries protocol host clientName pre
      (walkOne protocol host clientName pre acc e) rest

end

/-- `buildAssetIndex(req, clientName, dirPath)`: walk the client's asset tree
and build the object mapping stripped relative keys to absolute URLs.
`protocol` and `host` come from the request (`req.protocol`, `req.get("host")`). -/
def buildAssetIndex (protocol host clientName : String) (entries : List Entry) :
    List (String × String) :=
  walkEntries protocol host clientName "" [] entries

mutual

/-- The regular files reached below a single entry, as
(relative path segments, content) pairs in traversal order. -/
def walkFilesOne : Entry → List (List String × List Nat)
  | .file n c => [([n], c)]
  | .dir n sub => (walkFilesSeg sub).map (fun p => (n :: p.1, p.2))

/-- The regular files reached by the recursive walk of a directory, as
(relative path segments, content) pairs in traversal order. -/
def walkFilesSeg : List Entry → List (List String × List Nat)
  | [] => []
  | e :: rest => walkFilesOne e ++ walkFilesSeg rest

end

/-- One fold step of the walk, abstracted over the file list: insert the
stripped key and its URL for one walked file. -/
def insStep (protocol host clientName pre : String)
    (a : List (String × String)) (pr : List String × List Nat) :
    List (String × String) :=
  objInsert a (stripExt (joinRel pre (joinSegs pr.1)))
    (urlOf protocol host clientName (joinRel pre (joinSegs pr.1)))

/-- Resolution of a relative URL path inside a directory tree, as
`express.static` serves it: follow directory names segment by segment and
return the bytes of the file found at the final segment. -/
def resolvePath : List Entry → List String → Option (List Nat)
  | _, [] => none
  | es, [n] =>
    match es.find? (fun e => entryName e = n) with
    | some (.file _ c) => some c
    | _ => none
  | es, n :: rest =>
    match es.find? (fun e => entryName e = n) with
    | some (.dir _ sub) => resolvePath sub rest
    | _ => none

/-- The final path segment of a relative path: the part after the last `/`. -/
def lastSegList (l : List Char) : List Char :=
  (l.reverse.takeWhile (fun c => c ≠ '/')).reverse

/-- Replace the final path segment of `l` by `seg`. -/
def withLastSegList (l seg : List Char) : List Char :=
  (l.reverse.dropWhile (fun c => c ≠ '/')).reverse ++ seg

/-- Remove the last dot of a segment and everything after it. -/
def dropAfterLastDotList (seg : List Char) : List Char :=
  ((seg.reverse.dropWhile (fun c => c ≠ '.')).drop 1).reverse

/-- Extension stripping of one path segment, worded as "text after the last
dot removed", restricted to segments where at least one character follows
the last dot (the amendment forced by the source regex, which leaves names
ending in a dot unchanged). -/
def specStripSegList (seg : List Char) : List Char :=
  if seg.contains '.' && seg.getLast? ≠ some '.' then
    dropAfterLastDotList seg
  else seg

/-- Modelled from the spec (amended): the mapping-key computation described in
words — strip the final extension of the final path segment, when at least
one character follows its last dot. -/
def specStripPath (s : String) : String :=
  ⟨withLastSegList s.data (specStripSegList (lastSegList s.data))⟩

/-- Modelled from the spec: extension stripping as the spec literally words
it, consistent with its own `a.b.txt ↦ a.b` example: if the final path
segment contains a dot, drop the last dot and all text after it. -/
def specStripPathLiteral (s : String) : String :=
  ⟨withLastSegList s.data
    (if (lastSegList s.data).contains '.' then
        dropAfterLastDotList (lastSegList s.data)
      else lastSegList s.data)⟩

/-- An HTTP request as the model sees it: method, URL path split at `/` into
segments, headers (lowercase names), and the scheme/host Express derives for
`req.protocol` and `req.get("host")`. -/
structure Request where
  method : String
  pathSegs : List String
  headers : List (String × String)
  protocol : String
  host : String

/-- `req.header(name)` / `req.headers[name]` lookup. -/
def headerVal (req : Request) (name : String) : Option String :=
  objLookup req.headers name

/-- A response body in the model. -/
inductive Body where
  | empty
  | text (s : String)
  | jsonError (msg : String)
  | jsonIndex (idx : List (String × String))
  | fileContent (bytes : List Nat)
deriving DecidableEq, Repr

/-- Status code and body of a response. -/
structure HttpRes where
  status : Nat
  body : Body
deriving DecidableEq, Repr

/-- Outcome of the authentication middleware: a short-circuiting response, or
the resolved client attached to the request before `next()` runs. -/
inductive AuthOutcome where
  | reject (res : HttpRes)
  | proceed (client : Client)
deriving DecidableEq, Repr

/-- Server configuration after startup: the CORS allow-list and the registry
built by `loadClients`. -/
structure Config where
  allowedOrigins : List String
  registry : List (String × Client)

/-- The disk as the server reads it: each absolute directory path that exists
is mapped to its entries. -/
def Disk : Type := List (String × List Entry)

/-- `fs.existsSync` / directory read, combined: the entries of a directory
path, if it exists. -/
def dLookup (d : Disk) (p : String) : Option (List Entry) :=
  objLookup d p

/-- The CORS allow test of the middleware:
`!origin || ALLOWED_ORIGINS.includes(origin)`. -/
def corsAllows (allowed : List String) (origin : Option String) : Bool :=
  !(jsTruthy origin) || allowed.contains (origin.getD "")

/-- `authenticateClient`: 401 when either credential header is falsy, 403 when
the id is not a registry key or the stored secret differs, otherwise attach
the client and proceed. -/
def authenticateClient (registry : List (String × Client)) (req : Request) :
    AuthOutcome :=
  let clientId := headerVal req "x-client-id"
  let clientSecret := headerVal req "x-client-secret"
  if !(jsTruthy clientId) || !(jsTruthy clientSecret) then
    .reject ⟨401, .jsonError "Missing authentication headers"⟩
  else
    match objLookup registry (clientId.getD "") with
    | none => .reject ⟨403, .jsonError "Invalid client credentials"⟩
    | some client =>
      if client.secret ≠ clientSecret.getD "" then
        .reject ⟨403, .jsonError "Invalid client credentials"⟩
      else .proceed client

/-- The `GET /api/assets` handler body, after authentication attached
`client`: `{}` when the asset directory does not exist, otherwise the built
index. -/
def apiAssetsHandler (disk : Disk) (req : Request) (client : Client) : HttpRes :=
  match dLookup disk client.assetDir with
  | none => ⟨200, .jsonIndex []⟩
  | some entries =>
    ⟨200, .jsonIndex (buildAssetIndex req.protocol req.host client.name entries)⟩

/-- The `/assets/:client` route: resolve the path segment against the registry
values by name (first match), 404 when no client has that name, otherwise
serve from that client's asset directory with `express.static` semantics
(GET serves bytes, HEAD serves headers only, anything else falls through
to the default 404). -/
def staticHandler (registry : List (String × Client)) (disk : Disk)
    (clientSeg : String) (rest : List String) (method : String) : HttpRes :=
  match (objValues registry).find? (fun c => c.name = clientSeg) with
  | none => ⟨404, .text "Not Found"⟩
  | some client =>
    match dLookup disk client.assetDir with
    | none => ⟨404, .empty⟩
    | some entries =>
      if method = "GET" then
        match resolvePath entries rest with
        | some bytes => ⟨200, .fileContent bytes⟩
        | none => ⟨404, .empty⟩
      else if method = "HEAD" then
        match resolvePath entries rest with
        | some _ => ⟨200, .empty⟩
        | none => ⟨404, .empty⟩
      else ⟨404, .empty⟩

/-- The rate limiter's window capacity (`max: 120`). -/
def RATE_MAX : Nat := 120

/-- A full response: the HTTP response plus whether the CORS middleware set
the permissive CORS headers on it. -/
structure ServerRes where
  res : HttpRes
  cors : Bool
deriving DecidableEq, Repr

/-- The route table, consulted in registration order once the middleware let
the request through: the protected index route, the per-client static route,
the health check, and Express's default 404. -/
def route (cfg : Config) (disk : Disk) (req : Request) : HttpRes :=
  if req.method = "GET" ∧ req.pathSegs = ["api", "assets"] then
    match authenticateClient cfg.registry req with
    | .reject r => r
    | .proceed client => apiAssetsHandler disk req client
  else
    match req.pathSegs with
    | "assets" :: clientSeg :: rest =>
      staticHandler cfg.registry disk clientSeg rest req.method
    | _ =>
      if req.method = "GET" ∧ req.pathSegs = ["health"] then ⟨200, .text "OK"⟩
      else ⟨404, .empty⟩

/-- The whole middleware/routing pipeline for one request, in registration
order: CORS (answering every OPTIONS with 204 before anything else), the
rate limiter (`hits` previously counted in the current window for this
caller), then the routes. Returns the response and the updated hit count. -/
def handle (cfg : Config) (disk : Disk) (req : Request) (hits : Nat) :
    ServerRes × Nat :=
  let corsOk := corsAllows cfg.allowedOrigins (headerVal req "origin")
  if req.method = "OPTIONS" then
    (⟨⟨204, .empty⟩, corsOk⟩, hits)
  else
    let counted := hits + 1
    if RATE_MAX < counted then
      (⟨⟨429, .text "Too many requests, please try again later."⟩, corsOk⟩,
        counted)
    else
      (⟨route cfg disk req, corsOk⟩, counted)

/-! ### Concrete fixtures (a one-client configuration and small asset trees) -/

/-- Environment of the spec's scenario: client `acme`, id `abc`, secret `xyz`. -/
def envW : List (String × String) :=
  [("CLIENTS", "acme"), ("ACME_ID", "abc"), ("ACME_SECRET", "xyz")]

/-- The client record `loadClients` builds from `envW` with root `/r`. -/
def acmeW : Client :=
  { name := "acme", secret := "xyz", assetDir := "/r/acme" }

/-- The registry `loadClients envW "/r"` produces. -/
def regW : List (String × Client) := [("abc", acmeW)]

/-- A server configuration over `regW` with one allowed origin. -/
def cfgW : Config := ⟨["http://ok.example"], regW⟩

/-- A small asset tree with a nested directory. -/
def treeW : List Entry :=
  [Entry.dir "sub" [Entry.file "img.png" [7]], Entry.file "logo.png" [9]]

/-- A disk on which `acme`'s asset directory holds `treeW`. -/
def diskW : Disk := [("/r/acme", treeW)]

/-- Two files whose keys collide after extension stripping. -/
def treeC1X : List Entry := [Entry.file "a.jpg" [1], Entry.file "a.png" [2]]

/-- A disk holding the colliding tree for `acme`. -/
def diskC1X : Disk := [("/r/acme", treeC1X)]

/-- A tree exercising nesting, multiple dots and no extension. -/
def treeC2W : List Entry :=
  [Entry.dir "sub" [Entry.dir "dir" [Entry.file "img.png" [1]]],
    Entry.file "a.b.txt" [2], Entry.file "noext" [3]]

/-- A single file whose name ends in a dot. -/
def treeC2X : List Entry := [Entry.file "file." [4]]

/-- A correctly authenticated index request. -/
def apiReqW : Request :=
  ⟨"GET", ["api", "assets"],
    [("x-client-id", "abc"), ("x-client-secret", "xyz")], "http", "h"⟩

/-- An index request missing the id header, with a valid secret. -/
def apiReqNoIdW : Request :=
  ⟨"GET", ["api", "assets"], [("x-client-secret", "xyz")], "http", "h"⟩

/-- An index request whose id header is present but empty, with a valid
secret. -/
def apiReqEmptyIdW : Request :=
  ⟨"GET", ["api", "assets"],
    [("x-client-id", ""), ("x-client-secret", "xyz")], "http", "h"⟩

/-- A preflight from an origin outside the allow-list, carrying credential
headers that would not authenticate. -/
def optionsEvilW : Request :=
  ⟨"OPTIONS", ["api", "assets"],
    [("origin", "http://evil.example"), ("x-client-id", "nope"),
      ("x-client-secret", "nope")], "http", "h"⟩

/-- A preflight from an allowed origin. -/
def optionsOkW : Request :=
  ⟨"OPTIONS", ["assets", "acme", "logo.png"],
    [("origin", "http://ok.example")], "http", "h"⟩

/-- An unauthenticated static-file request for a nested asset of `acme`. -/
def staticReqW : Request :=
  ⟨"GET", ["assets", "acme", "sub", "img.png"], [], "http", "h"⟩

/-- A static-file request naming an unknown client. -/
def staticReqUnknownW : Request :=
  ⟨"GET", ["assets", "nope", "x.png"], [], "http", "h"⟩

/-! ### Association-list (JS object) lemmas -/

theorem objLookup_cons {α : Type} (k' : String) (v' : α) (l : List (String × α))
    (k : String) :
    objLookup ((k', v') :: l) k = if k' = k then some v' else objLookup l k := by
  simp only [objLookup, List.find?]
  by_cases h : k' = k <;> simp [h]

theorem objKeys_cons {α : Type} (k' : String) (v' : α) (l : List (String × α)) :
    objKeys ((k', v') :: l) = k' :: objKeys l := rfl

theorem objInsert_cons_eq {α : Type} (k : String) (v' v : α)
    (rest : List (String × α)) :
    objInsert ((k, v') :: rest) k v = (k, v) :: rest := by
  simp [objInsert]

theorem objInsert_cons_ne {α : Type} (k' k : String) (v' v : α)
    (rest : List (String × α)) (h : k' ≠ k) :
    objInsert ((k', v') :: rest) k v = (k', v') :: objInsert rest k v := by
  simp [objInsert, h]

theorem objKeys_objInsert {α : Type} (l : List (String × α)) (k : String)
    (v : α) (m : String) :
    m ∈ objKeys (objInsert l k v) → m ∈ objKeys l ∨ m = k := by
  induction l with
  | nil =>
    intro hm
    right
    simpa [objInsert, objKeys] using hm
  | cons p rest ih =>
    rcases p with ⟨k', v'⟩
    intro hm
    by_cases h : k' = k
    · subst h
      rw [objInsert_cons_eq, objKeys_cons] at hm
      rcases List.mem_cons.mp hm with hm | hm
      · exact Or.inr hm
      · exact Or.inl (by rw [objKeys_cons]; exact List.mem_cons_of_mem _ hm)
    · rw [objInsert_cons_ne _ _ _ _ _ h, objKeys_cons] at hm
      rcases List.mem_cons.mp hm with hm | hm
      · exact Or.inl (by rw [objKeys_cons, hm]; exact List.mem_cons_self _ _)
      · rcases ih hm with h' | h'
        · exact Or.inl (by rw [objKeys_cons]; exact List.mem_cons_of_mem _ h')
        · exact Or.inr h'

theorem objInsert_of_not_mem {α : Type} (l : List (String × α)) (k : String)
    (v : α) (h : k ∉ objKeys l) : objInsert l k v = l ++ [(k, v)] := by
  induction l with
  | nil => rfl
  | cons p rest ih =>
    rcases p with ⟨k', v'⟩
    rw [objKeys_cons, List.mem_cons] at h
    push_neg at h
    rw [objInsert_cons_ne _ _ _ _ _ (fun hh => h.1 hh.symm), ih h.2,
      List.cons_append]

theorem objLookup_objInsert_self {α : Type} (l : List (String × α))
    (k : String) (v : α) : objLookup (objInsert l k v) k = some v := by
  induction l with
  | nil => simp [objInsert, objLookup]
  | cons p rest ih =>
    rcases p with ⟨k', v'⟩
    by_cases h : k' = k
    · subst h
      rw [objInsert_cons_eq, objLookup_cons, if_pos rfl]
    · rw [objInsert_cons_ne _ _ _ _ _ h, objLookup_cons, if_neg h, ih]

theorem objLookup_objInsert_other {α : Type} (l : List (String × α))
    (k k' : String) (v : α) (h : k' ≠ k) :
    objLookup (objInsert l k v) k' = objLookup l k' := by
  induction l with
  | nil =>
    show objLookup [(k, v)] k' = none
    rw [objLookup_cons, if_neg (fun hh => h hh.symm)]
    rfl
  | cons p rest ih =>
    rcases p with ⟨a, b⟩
    by_cases ha : a = k
    · subst ha
      rw [objInsert_cons_eq, objLookup_cons, objLookup_cons,
        if_neg (fun hh => h hh.symm), if_neg (fun hh => h hh.symm)]
    · rw [objInsert_cons_ne _ _ _ _ _ ha, objLookup_cons, objLookup_cons, ih]

/-! ### Path-joining lemmas -/

theorem String_append_ne_empty_left (s t : String) (h : s ≠ "") :
    s ++ t ≠ "" := by
  intro he
  apply h
  have : (s ++ t).data = [] := by rw [he]
  rw [String.data_append] at this
  rcases List.append_eq_nil.mp this with ⟨h1, _⟩
  cases s
  simp_all

theorem joinSegs_cons (n : String) (segs : List String) (h : segs ≠ []) :
    joinSegs (n :: segs) = n ++ "/" ++ joinSegs segs := by
  cases segs with
  | nil => exact absurd rfl h
  | cons m t => rfl

theorem joinRel_joinSegs_cons (pre n : String) (segs : List String)
    (hn : n ≠ "") (hs : segs ≠ []) :
    joinRel pre (joinSegs (n :: segs)) = joinRel (joinRel pre n) (joinSegs segs) := by
  rw [joinSegs_cons n segs hs]
  by_cases hp : pre = ""
  · simp [joinRel, hp, hn, String.append_assoc]
  · simp [joinRel, hp, String_append_ne_empty_left pre ("/" ++ n)
      hp, String.append_assoc]

/-! ### takeWhile / dropWhile helpers -/

theorem takeWhile_append_all {α : Type} (p : α → Bool) (a b : List α)
    (h : ∀ x ∈ a, p x = true) : (a ++ b).takeWhile p = a ++ b.takeWhile p := by
  induction a with
  | nil => simp
  | cons x xs ih =>
    have hx := h x (List.mem_cons_self x xs)
    simp [List.takeWhile_cons, hx,
      ih (fun y hy => h y (List.mem_cons_of_mem _ hy))]

theorem dropWhile_append_all {α : Type} (p : α → Bool) (a b : List α)
    (h : ∀ x ∈ a, p x = true) : (a ++ b).dropWhile p = b.dropWhile p := by
  induction a with
  | nil => simp
  | cons x xs ih =>
    have hx := h x (List.mem_cons_self x xs)
    simp [List.dropWhile_cons, hx,
      ih (fun y hy => h y (List.mem_cons_of_mem _ hy))]

theorem head_dropWhile_false {α : Type} (p : α → Bool) :
    ∀ (l : List α) (c : α) (t : List α), l.dropWhile p = c :: t → p c = false := by
  intro l
  induction l with
  | nil => intro c t h; cases h
  | cons x xs ih =>
    intro c t h
    by_cases hx : p x = true
    · rw [List.dropWhile_cons, if_pos hx] at h
      exact ih c t h
    · rw [List.dropWhile_cons, if_neg hx] at h
      cases h
      simpa using hx

theorem contains_eq_false_of {α : Type} [BEq α] [LawfulBEq α] (l : List α)
    (c : α) (h : ∀ x ∈ l, x ≠ c) : l.contains c = false := by
  induction l with
  | nil => rfl
  | cons x xs ih =>
    have h1 : (c == x) = false := by
      simp only [beq_eq_false_iff_ne, ne_eq]
      exact fun hh => h x (List.mem_cons_self x xs) hh.symm
    rw [List.contains_cons, h1, Bool.false_or]
    exact ih (fun y hy => h y (List.mem_cons_of_mem _ hy))

theorem contains_true_of_mem {α : Type} [BEq α] [LawfulBEq α] {l : List α}
    {c : α} (h : c ∈ l) : l.contains c = true := by
  induction l with
  | nil => cases h
  | cons x xs ih =>
    rw [List.contains_cons]
    rcases List.mem_cons.mp h with h1 | h1
    · subst h1
      simp
    · rw [ih h1, Bool.or_true]

/-! ### Equivalence of the regex key computation with the spec's wording -/

theorem extChar_spec (x : Char) (hx : extChar x = true) : x ≠ '.' ∧ x ≠ '/' := by
  simp only [extChar, Bool.not_eq_true', Bool.or_eq_false_iff,
    decide_eq_false_iff_not] at hx
  exact hx

theorem extChar_false (x : Char) (hx : extChar x = false) :
    x = '.' ∨ x = '/' := by
  by_cases h1 : x = '.'
  · exact Or.inl h1
  · by_cases h2 : x = '/'
    · exact Or.inr h2
    · have : extChar x = true := by simp [extChar, h1, h2]
      rw [this] at hx
      cases hx

theorem withLastSegList_lastSegList (l : List Char) :
    withLastSegList l (lastSegList l) = l := by
  rw [withLastSegList, lastSegList, ← List.reverse_append,
    List.takeWhile_append_dropWhile, List.reverse_reverse]

theorem stripExtList_eq_spec (l : List Char) :
    stripExtList l = withLastSegList l (specStripSegList (lastSegList l)) := by
  have hqp : ∀ x : Char, extChar x = true → decide (x ≠ '/') = true := by
    intro x hx
    simpa using (extChar_spec x hx).2
  have hnd : ∀ x : Char, extChar x = true → x ≠ '.' :=
    fun x hx => (extChar_spec x hx).1
  rcases hrd : l.reverse.dropWhile extChar with _ | ⟨c, t⟩
  · -- no dot or slash anywhere: both sides leave the path unchanged
    have hall : ∀ x ∈ l.reverse, extChar x = true :=
      List.dropWhile_eq_nil_iff.mp hrd
    have htake : l.reverse.takeWhile (fun c : Char => c ≠ '/') = l.reverse :=
      List.takeWhile_eq_self_iff.mpr (fun x hx => hqp x (hall x hx))
    have hnodot : l.contains '.' = false :=
      contains_eq_false_of l '.'
        (fun x hx => hnd x (hall x (List.mem_reverse.mpr hx)))
    have hseg : specStripSegList (lastSegList l) = lastSegList l := by
      rw [specStripSegList, lastSegList, htake, List.reverse_reverse, hnodot,
        if_neg (by simp)]
    rw [hseg, withLastSegList_lastSegList]
    rw [stripExtList, hrd]
  · have hc : extChar c = false := head_dropWhile_false extChar l.reverse c t hrd
    have hsplit' : l.reverse.takeWhile extChar ++ c :: t = l.reverse := by
      rw [← hrd]
      exact List.takeWhile_append_dropWhile extChar l.reverse
    have hext : ∀ x ∈ l.reverse.takeWhile extChar, extChar x = true :=
      fun x hx => List.mem_takeWhile_imp hx
    have hextq : ∀ x ∈ l.reverse.takeWhile extChar, decide (x ≠ '/') = true :=
      fun x hx => hqp x (hext x hx)
    rcases extChar_false c hc with hdotc | hslashc
    · -- the first dot-or-slash from the end is a dot
      subst hdotc
      rcases hext0 : l.reverse.takeWhile extChar with _ | ⟨e, ext'⟩
      · -- a leading dot of the final segment: unchanged on both sides
        have hrev : l.reverse = '.' :: t := by
          rw [← hsplit', hext0]
          rfl
        have htq : l.reverse.takeWhile (fun c : Char => c ≠ '/') =
            '.' :: t.takeWhile (fun c : Char => c ≠ '/') := by
          rw [hrev, List.takeWhile_cons]
          simp
        have hlast : (lastSegList l).getLast? = some '.' := by
          rw [lastSegList, htq, List.reverse_cons, List.getLast?_concat]
        have hseg : specStripSegList (lastSegList l) = lastSegList l := by
          rw [specStripSegList, if_neg (by simp [hlast])]
        rw [hseg, withLastSegList_lastSegList]
        rw [stripExtList, hrd, hext0]
        simp
      · -- a real extension: both sides cut at the last dot
        have hrev : l.reverse = (e :: ext') ++ '.' :: t := by
          rw [← hsplit', hext0]
        have he : extChar e = true := hext e (by rw [hext0]; simp)
        have hext'm : ∀ x ∈ e :: ext', extChar x = true := by
          intro x hx
          exact hext x (by rw [hext0]; exact hx)
        have htq : l.reverse.takeWhile (fun c : Char => c ≠ '/') =
            (e :: ext') ++ '.' :: t.takeWhile (fun c : Char => c ≠ '/') := by
          rw [hrev, takeWhile_append_all _ _ _
            (fun x hx => hqp x (hext'm x hx)), List.takeWhile_cons]
          simp
        have hdq : l.reverse.dropWhile (fun c : Char => c ≠ '/') =
            t.dropWhile (fun c : Char => c ≠ '/') := by
          rw [hrev, dropWhile_append_all _ _ _
            (fun x hx => hqp x (hext'm x hx)), List.dropWhile_cons]
          simp
        have hcont : (lastSegList l).contains '.' = true := by
          apply contains_true_of_mem
          rw [lastSegList, htq, List.mem_reverse]
          simp
        have hlast : (lastSegList l).getLast? = some e := by
          rw [lastSegList, htq]
          rw [show ((e :: ext') ++
              '.' :: t.takeWhile (fun c : Char => c ≠ '/')).reverse =
              ((t.takeWhile (fun c : Char => c ≠ '/')).reverse ++
                '.' :: ext'.reverse) ++ [e] from by simp]
          exact List.getLast?_concat _
        have hdrop1 : dropAfterLastDotList (lastSegList l) =
            (t.takeWhile (fun c : Char => c ≠ '/')).reverse := by
          rw [dropAfterLastDotList, lastSegList, htq, List.reverse_reverse,
            dropWhile_append_all _ _ _
              (fun x hx => by simpa using hnd x (hext'm x hx)),
            List.dropWhile_cons]
          simp
        have hseg : specStripSegList (lastSegList l) =
            (t.takeWhile (fun c : Char => c ≠ '/')).reverse := by
          rw [specStripSegList, if_pos, hdrop1]
          rw [hcont, hlast]
          simp
          exact hnd e he
        rw [withLastSegList, hseg, hdq, ← List.reverse_append,
          List.takeWhile_append_dropWhile]
        rw [stripExtList, hrd, hext0]
        simp
    · -- the first dot-or-slash from the end is a slash: unchanged
      subst hslashc
      have hrev : l.reverse = l.reverse.takeWhile extChar ++ '/' :: t :=
        hsplit'.symm
      have htq : l.reverse.takeWhile (fun c : Char => c ≠ '/') =
          l.reverse.takeWhile extChar := by
        conv_lhs => rw [hrev]
        rw [takeWhile_append_all _ _ _ hextq, List.takeWhile_cons]
        simp
      have hnodot : (lastSegList l).contains '.' = false := by
        apply contains_eq_false_of
        intro x hx
        rw [lastSegList, htq, List.mem_reverse] at hx
        exact hnd x (hext x hx)
      have hseg : specStripSegList (lastSegList l) = lastSegList l := by
        rw [specStripSegList, hnodot, if_neg (by simp)]
      rw [hseg, withLastSegList_lastSegList]
      rw [stripExtList, hrd]
      simp

theorem stripExt_eq_specStripPath (s : String) : stripExt s = specStripPath s := by
  rcases s with ⟨l⟩
  exact congrArg String.mk (stripExtList_eq_spec l)

/-! ### Walk enumeration lemmas -/

theorem not_mem_of_contains_false {α : Type} [BEq α] [LawfulBEq α]
    {l : List α} {c : α} (h : l.contains c = false) : c ∉ l := by
  intro hm
  rw [contains_true_of_mem hm] at h
  cases h

theorem wellFormed_cons {e : Entry} {rest : List Entry}
    (h : wellFormed (e :: rest) = true) :
    wfOne e = true ∧ entryName e ∉ entryNames rest ∧ wellFormed rest = true := by
  rw [wellFormed] at h
  rcases Bool.and_eq_true_iff.mp h with ⟨h12, h3⟩
  rcases Bool.and_eq_true_iff.mp h12 with ⟨h1, h2⟩
  refine ⟨h1, not_mem_of_contains_false ?_, h3⟩
  rcases hc : (entryNames rest).contains (entryName e) with _ | _
  · rfl
  · rw [hc] at h2
    cases h2

theorem wfOne_dir {n : String} {sub : List Entry}
    (h : wfOne (Entry.dir n sub) = true) :
    goodName n = true ∧ wellFormed sub = true := by
  rw [wfOne] at h
  exact Bool.and_eq_true_iff.mp h

theorem goodName_ne_empty {n : String} (h : goodName n = true) : n ≠ "" := by
  rw [goodName] at h
  rcases Bool.and_eq_true_iff.mp h with ⟨h1, _⟩
  simpa using h1

theorem walkFilesOne_shape (e : Entry) :
    ∀ pr ∈ walkFilesOne e, ∃ t, pr.1 = entryName e :: t := by
  cases e with
  | file n c =>
    intro pr hpr
    rw [walkFilesOne] at hpr
    rcases List.mem_singleton.mp hpr with rfl
    exact ⟨[], rfl⟩
  | dir n sub =>
    intro pr hpr
    rw [walkFilesOne] at hpr
    rcases List.mem_map.mp hpr with ⟨q, _, rfl⟩
    exact ⟨q.1, rfl⟩

theorem walkFilesSeg_shape (es : List Entry) :
    ∀ pr ∈ walkFilesSeg es, ∃ e ∈ es, ∃ t, pr.1 = entryName e :: t := by
  induction es with
  | nil =>
    intro pr hpr
    rw [walkFilesSeg] at hpr
    cases hpr
  | cons e rest ih =>
    intro pr hpr
    rw [walkFilesSeg] at hpr
    rcases List.mem_append.mp hpr with h | h
    · obtain ⟨t, ht⟩ := walkFilesOne_shape e pr h
      exact ⟨e, List.mem_cons_self e rest, t, ht⟩
    · obtain ⟨e', he', t, ht⟩ := ih pr h
      exact ⟨e', List.mem_cons_of_mem _ he', t, ht⟩

theorem walkFilesSeg_ne_nil (es : List Entry) :
    ∀ pr ∈ walkFilesSeg es, pr.1 ≠ [] := by
  intro pr hpr
  obtain ⟨e, _, t, ht⟩ := walkFilesSeg_shape es pr hpr
  rw [ht]
  exact List.cons_ne_nil _ _

theorem foldl_ext_mem {α β : Type} (f g : α → β → α) (a : α) :
    ∀ (l : List β), (∀ x ∈ l, ∀ a', f a' x = g a' x) →
      l.foldl f a = l.foldl g a := by
  intro l
  induction l generalizing a with
  | nil => intro _; rfl
  | cons x xs ih =>
    intro h
    rw [List.foldl_cons, List.foldl_cons, h x (List.mem_cons_self x xs)]
    exact ih _ (fun y hy a' => h y (List.mem_cons_of_mem _ hy) a')

/-- The walk of `buildAssetIndex` is the fold of key/URL insertion over the
recursively enumerated files. -/
theorem walkEntries_eq_foldl (protocol host clientName : String) :
    ∀ (pre : String) (acc : List (String × String)) (es : List Entry),
      wellFormed es = true →
      walkEntries protocol host clientName pre acc es =
        (walkFilesSeg es).foldl (insStep protocol host clientName pre) acc := by
  refine walkEntries.induct protocol host clientName
    (fun pre acc e => wfOne e = true →
      walkOne protocol host clientName pre acc e =
        (walkFilesOne e).foldl (insStep protocol host clientName pre) acc)
    (fun pre acc es => wellFormed es = true →
      walkEntries protocol host clientName pre acc es =
        (walkFilesSeg es).foldl (insStep protocol host clientName pre) acc)
    ?_ ?_ ?_ ?_
  · intro pre acc n c _
    rw [walkOne, walkFilesOne, List.foldl_cons, List.foldl_nil, insStep]
    rfl
  · intro pre acc n sub ih hwf
    rcases wfOne_dir hwf with ⟨hn, hsub⟩
    rw [walkOne, ih hsub, walkFilesOne, List.foldl_map]
    refine foldl_ext_mem _ _ acc (walkFilesSeg sub) ?_
    intro q hq a'
    have hq1 : q.1 ≠ [] := walkFilesSeg_ne_nil sub q hq
    rw [insStep, insStep]
    rw [joinRel_joinSegs_cons pre n q.1 (goodName_ne_empty hn) hq1]
  · intro pre acc _
    rw [walkEntries, walkFilesSeg, List.foldl_nil]
  · intro pre acc e rest ih1 ih2 hwf
    rcases wellFormed_cons hwf with ⟨h1, _, h3⟩
    rw [walkEntries, ih2 h3, ih1 h1, walkFilesSeg, List.foldl_append]

/-- Folding fresh-keyed insertions is plain appending. -/
theorem foldl_objInsert_fresh {α β : Type} (kf : β → String) (vf : β → α) :
    ∀ (pairs : List β) (acc : List (String × α)),
      (pairs.map kf).Nodup → (∀ b ∈ pairs, kf b ∉ objKeys acc) →
      pairs.foldl (fun a b => objInsert a (kf b) (vf b)) acc
        = acc ++ pairs.map (fun b => (kf b, vf b)) := by
  intro pairs
  induction pairs with
  | nil =>
    intro acc _ _
    simp
  | cons b rest ih =>
    intro acc hnd hfresh
    rw [List.map_cons, List.nodup_cons] at hnd
    rw [List.foldl_cons,
      objInsert_of_not_mem _ _ _ (hfresh b (List.mem_cons_self b rest)),
      ih (acc ++ [(kf b, vf b)]) hnd.2 ?_]
    · rw [List.map_cons, List.append_assoc, List.singleton_append]
    · intro b' hb' hmem
      have : kf b' ∈ objKeys acc ++ [kf b] := by
        simpa [objKeys] using hmem
      rcases List.mem_append.mp this with h | h
      · exact hfresh b' (List.mem_cons_of_mem _ hb') h
      · rcases List.mem_singleton.mp h with h
        exact hnd.1 (h ▸ List.mem_map_of_mem kf hb')

/-- `resolvePath` skips a leading entry whose name differs from the first
segment. -/
theorem resolvePath_cons_ne (e : Entry) (rest : List Entry) (m : String)
    (t : List String) (h : entryName e ≠ m) :
    resolvePath (e :: rest) (m :: t) = resolvePath rest (m :: t) := by
  have hf : (e :: rest).find? (fun x => entryName x = m) =
      rest.find? (fun x => entryName x = m) :=
    List.find?_cons_of_neg _ (by simp [h])
  cases t with
  | nil => simp [resolvePath, hf]
  | cons u us => simp [resolvePath, hf]

/-- Round trip of the walk with static serving: every file enumerated by the
walk of a well-formed tree is found again by path resolution at its relative
segment list. -/
theorem resolvePath_of_walk :
    ∀ (es : List Entry), wellFormed es = true →
      ∀ pr ∈ walkFilesSeg es, resolvePath es pr.1 = some pr.2 := by
  refine walkFilesSeg.induct
    (fun e => wfOne e = true → ∀ pr ∈ walkFilesOne e,
      ∀ (rest : List Entry), resolvePath (e :: rest) pr.1 = some pr.2)
    (fun es => wellFormed es = true →
      ∀ pr ∈ walkFilesSeg es, resolvePath es pr.1 = some pr.2)
    ?_ ?_ ?_ ?_
  · intro n c _ pr hpr rest
    rw [walkFilesOne] at hpr
    rcases List.mem_singleton.mp hpr with rfl
    have hf : (Entry.file n c :: rest).find? (fun x => entryName x = n) =
        some (Entry.file n c) :=
      List.find?_cons_of_pos _ (by simp [entryName])
    simp [resolvePath, hf]
  · intro n sub ih hwf pr hpr rest
    rcases wfOne_dir hwf with ⟨_, hsub⟩
    rw [walkFilesOne] at hpr
    rcases List.mem_map.mp hpr with ⟨q, hq, rfl⟩
    have hq1 : q.1 ≠ [] := walkFilesSeg_ne_nil sub q hq
    have hf : (Entry.dir n sub :: rest).find? (fun x => entryName x = n) =
        some (Entry.dir n sub) :=
      List.find?_cons_of_pos _ (by simp [entryName])
    rcases hq1' : q.1 with _ | ⟨u, us⟩
    · exact absurd hq1' hq1
    · have := ih hsub q hq
      rw [hq1'] at this
      simpa [resolvePath, hf] using this
  · intro _ pr hpr
    rw [walkFilesSeg] at hpr
    cases hpr
  · intro e rest ih1 ih2 hwf pr hpr
    rcases wellFormed_cons hwf with ⟨h1, h2, h3⟩
    rw [walkFilesSeg] at hpr
    rcases List.mem_append.mp hpr with h | h
    · exact ih1 h1 pr h rest
    · obtain ⟨e', he', t, ht⟩ := walkFilesSeg_shape rest pr h
      have hne : entryName e ≠ entryName e' := by
        intro hh
        exact h2 (hh ▸ List.mem_map_of_mem entryName he')
      rw [ht, resolvePath_cons_ne e rest (entryName e') t hne, ← ht]
      exact ih2 h3 pr h

/-! ### Registry construction lemmas -/

theorem mem_objInsert {α : Type} (l : List (String × α)) (k : String) (v : α)
    (p : String × α) : p ∈ objInsert l k v → p ∈ l ∨ p = (k, v) := by
  induction l with
  | nil =>
    intro hp
    right
    simpa [objInsert] using hp
  | cons q rest ih =>
    rcases q with ⟨k', v'⟩
    intro hp
    by_cases h : k' = k
    · subst h
      rw [objInsert_cons_eq] at hp
      rcases List.mem_cons.mp hp with h1 | h1
      · exact Or.inr h1
      · exact Or.inl (List.mem_cons_of_mem _ h1)
    · rw [objInsert_cons_ne _ _ _ _ _ h] at hp
      rcases List.mem_cons.mp hp with h1 | h1
      · exact Or.inl (h1 ▸ List.mem_cons_self _ _)
      · rcases ih h1 with h2 | h2
        · exact Or.inl (List.mem_cons_of_mem _ h2)
        · exact Or.inr h2

theorem jsTruthy_getD {o : Option String} (h : jsTruthy o = true) :
    o.getD "" ≠ "" := by
  cases o with
  | none => cases h
  | some s => simpa [jsTruthy] using h

theorem lacks_false_elim {env : List (String × String)} {name : String}
    (h : lacksCredentials env name = false) :
    jsTruthy (envLookup env (upperName name ++ "_ID")) = true ∧
      jsTruthy (envLookup env (upperName name ++ "_SECRET")) = true := by
  rw [lacksCredentials] at h
  rcases Bool.or_eq_false_iff.mp h with ⟨h1, h2⟩
  exact ⟨by simpa using h1, by simpa using h2⟩

theorem loadClientsAux_inv (env : List (String × String)) (root : String) :
    ∀ (names : List String) (acc reg : List (String × Client)),
      loadClientsAux env root names acc = .ok reg →
      (∀ p ∈ acc, p.1 ≠ "" ∧ p.2.secret ≠ "" ∧
        p.2.assetDir = root ++ "/" ++ p.2.name) →
      ∀ p ∈ reg, p.1 ≠ "" ∧ p.2.secret ≠ "" ∧
        p.2.assetDir = root ++ "/" ++ p.2.name := by
  intro names
  induction names with
  | nil =>
    intro acc reg haux hinv
    rw [loadClientsAux] at haux
    cases haux
    exact hinv
  | cons name rest ih =>
    intro acc reg haux hinv
    simp only [loadClientsAux] at haux
    by_cases hcond : lacksCredentials env name = true
    · rw [if_pos (by rw [← lacksCredentials]; exact hcond)] at haux
      cases haux
    · have hcond' : lacksCredentials env name = false :=
        Bool.not_eq_true _ ▸ eq_false_of_ne_true hcond
      rcases lacks_false_elim hcond' with ⟨hid, hsec⟩
      rw [if_neg (by rw [← lacksCredentials]; simp [hcond'])] at haux
      refine ih _ reg haux ?_
      intro p hp
      rcases mem_objInsert _ _ _ p hp with h | h
      · exact hinv p h
      · rw [h]
        exact ⟨jsTruthy_getD hid, jsTruthy_getD hsec, rfl⟩

theorem loadClientsAux_error_iff (env : List (String × String)) (root : String) :
    ∀ (names : List String) (acc : List (String × Client)),
      (∃ e, loadClientsAux env root names acc = .error e) ↔
        ∃ n ∈ names, lacksCredentials env n = true := by
  intro names
  induction names with
  | nil =>
    intro acc
    constructor
    · rintro ⟨e, he⟩
      rw [loadClientsAux] at he
      cases he
    · rintro ⟨n, hn, _⟩
      cases hn
  | cons name rest ih =>
    intro acc
    simp only [loadClientsAux]
    by_cases hcond : lacksCredentials env name = true
    · rw [if_pos (by rw [← lacksCredentials]; exact hcond)]
      constructor
      · intro _
        exact ⟨name, List.mem_cons_self name rest, hcond⟩
      · intro _
        exact ⟨_, rfl⟩
    · have hcond' : lacksCredentials env name = false :=
        Bool.not_eq_true _ ▸ eq_false_of_ne_true hcond
      rw [if_neg (by rw [← lacksCredentials]; simp [hcond'])]
      rw [ih]
      constructor
      · rintro ⟨n, hn, hl⟩
        exact ⟨n, List.mem_cons_of_mem _ hn, hl⟩
      · rintro ⟨n, hn, hl⟩
        rcases List.mem_cons.mp hn with rfl | hn'
        · rw [hl] at hcond'
          cases hcond'
        · exact ⟨n, hn', hl⟩

theorem loadClientsAux_preserve (env : List (String × String)) (root : String) :
    ∀ (names : List String) (acc reg : List (String × Client)),
      loadClientsAux env root names acc = .ok reg →
      ∀ (k : String) (v : Client), objLookup acc k = some v →
        (∀ n ∈ names, idOf env n ≠ k) → objLookup reg k = some v := by
  intro names
  induction names with
  | nil =>
    intro acc reg haux k v hk _
    rw [loadClientsAux] at haux
    cases haux
    exact hk
  | cons name rest ih =>
    intro acc reg haux k v hk hne
    simp only [loadClientsAux] at haux
    by_cases hcond : lacksCredentials env name = true
    · rw [if_pos (by rw [← lacksCredentials]; exact hcond)] at haux
      cases haux
    · have hcond' : lacksCredentials env name = false :=
        Bool.not_eq_true _ ▸ eq_false_of_ne_true hcond
      rw [if_neg (by rw [← lacksCredentials]; simp [hcond'])] at haux
      refine ih _ reg haux k v ?_ ?_
      · rw [objLookup_objInsert_other]
        · exact hk
        · exact fun hh =>
            hne name (List.mem_cons_self name rest) (hh ▸ rfl)
      · exact fun n hn => hne n (List.mem_cons_of_mem _ hn)

theorem loadClientsAux_lookup (env : List (String × String)) (root : String) :
    ∀ (names : List String) (acc reg : List (String × Client)),
      loadClientsAux env root names acc = .ok reg →
      (names.map (idOf env)).Nodup →
      ∀ n ∈ names, objLookup reg (idOf env n) =
        some ⟨n, secretOf env n, root ++ "/" ++ n⟩ := by
  intro names
  induction names with
  | nil =>
    intro acc reg _ _ n hn
    cases hn
  | cons name rest ih =>
    intro acc reg haux hnd n hn
    simp only [loadClientsAux] at haux
    by_cases hcond : lacksCredentials env name = true
    · rw [if_pos (by rw [← lacksCredentials]; exact hcond)] at haux
      cases haux
    · have hcond' : lacksCredentials env name = false :=
        Bool.not_eq_true _ ▸ eq_false_of_ne_true hcond
      rw [if_neg (by rw [← lacksCredentials]; simp [hcond'])] at haux
      rw [List.map_cons, List.nodup_cons] at hnd
      rcases List.mem_cons.mp hn with rfl | hn'
      · refine loadClientsAux_preserve env root rest _ reg haux _ _ ?_ ?_
        · rw [show (⟨n, secretOf env n, root ++ "/" ++ n⟩ : Client) =
            { name := n,
              secret := (envLookup env (upperName n ++ "_SECRET")).getD "",
              assetDir := root ++ "/" ++ n } from rfl]
          rw [show idOf env n =
            (envLookup env (upperName n ++ "_ID")).getD "" from rfl]
          exact objLookup_objInsert_self _ _ _
        · intro m hm hh
          exact hnd.1 (hh ▸ List.mem_map_of_mem (idOf env) hm)
      · exact ih _ reg haux hnd.2 n hn'

/-! ### Pipeline unfolding lemmas -/

theorem handle_options (cfg : Config) (disk : Disk) (req : Request)
    (hits : Nat) (h : req.method = "OPTIONS") :
    handle cfg disk req hits =
      (⟨⟨204, .empty⟩,
        corsAllows cfg.allowedOrigins (headerVal req "origin")⟩, hits) := by
  simp only [handle]
  rw [if_pos h]

theorem handle_not_options (cfg : Config) (disk : Disk) (req : Request)
    (hits : Nat) (h : req.method ≠ "OPTIONS") (hrl : hits < RATE_MAX) :
    handle cfg disk req hits =
      (⟨route cfg disk req,
        corsAllows cfg.allowedOrigins (headerVal req "origin")⟩, hits + 1) := by
  simp only [handle]
  rw [if_neg h, if_neg (Nat.not_lt.mpr hrl)]

theorem route_api (cfg : Config) (disk : Disk) (req : Request)
    (hm : req.method = "GET") (hp : req.pathSegs = ["api", "assets"]) :
    route cfg disk req =
      (match authenticateClient cfg.registry req with
        | .reject r => r
        | .proceed client => apiAssetsHandler disk req client) := by
  rw [route, if_pos ⟨hm, hp⟩]

theorem route_static_seg (cfg : Config) (disk : Disk) (req : Request)
    (seg : String) (rest : List String)
    (hp : req.pathSegs = "assets" :: seg :: rest) :
    route cfg disk req = staticHandler cfg.registry disk seg rest req.method := by
  rw [route, if_neg (by rw [hp]; simp), hp]
  rfl

theorem staticHandler_found (registry : List (String × Client)) (disk : Disk)
    (seg : String) (rest : List String) (method : String) (client : Client)
    (h : (objValues registry).find? (fun c => c.name = seg) = some client) :
    staticHandler registry disk seg rest method =
      (match dLookup disk client.assetDir with
        | none => ⟨404, .empty⟩
        | some entries =>
          if method = "GET" then
            match resolvePath entries rest with
            | some bytes => ⟨200, .fileContent bytes⟩
            | none => ⟨404, .empty⟩
          else if method = "HEAD" then
            match resolvePath entries rest with
            | some _ => ⟨200, .empty⟩
            | none => ⟨404, .empty⟩
          else ⟨404, .empty⟩) := by
  simp only [staticHandler]
  rw [h]

theorem authenticateClient_missing (registry : List (String × Client))
    (req : Request)
    (h : jsTruthy (headerVal req "x-client-id") = false ∨
      jsTruthy (headerVal req "x-client-secret") = false) :
    authenticateClient registry req =
      .reject ⟨401, .jsonError "Missing authentication headers"⟩ := by
  simp only [authenticateClient]
  rcases h with h | h <;> rw [h] <;> simp

theorem authenticateClient_present (registry : List (String × Client))
    (req : Request) (cid sec : String)
    (hid : headerVal req "x-client-id" = some cid) (hc : cid ≠ "")
    (hsec : headerVal req "x-client-secret" = some sec) (hs : sec ≠ "") :
    authenticateClient registry req =
      (match objLookup registry cid with
        | none => .reject ⟨403, .jsonError "Invalid client credentials"⟩
        | some client =>
          if client.secret ≠ sec then
            .reject ⟨403, .jsonError "Invalid client credentials"⟩
          else .proceed client) := by
  simp only [authenticateClient, hid, hsec]
  rw [if_neg (by simp [jsTruthy, hc, hs])]
  rfl

theorem objLookup_some_mem {α : Type} (l : List (String × α)) (k : String)
    (v : α) : objLookup l k = some v → (k, v) ∈ l := by
  induction l with
  | nil => intro h; cases h
  | cons p rest ih =>
    rcases p with ⟨k', v'⟩
    intro h
    rw [objLookup_cons] at h
    by_cases hk : k' = k
    · subst hk
      rw [if_pos rfl] at h
      cases h
      exact List.mem_cons_self _ _
    · rw [if_neg hk] at h
      exact List.mem_cons_of_mem _ (ih h)

theorem objLookup_map_key {α β : Type} (kf : β → String) (vf : β → α) :
    ∀ (pairs : List β) (b : β), b ∈ pairs → (pairs.map kf).Nodup →
      objLookup (pairs.map (fun b => (kf b, vf b))) (kf b) = some (vf b) := by
  intro pairs
  induction pairs with
  | nil => intro b hb; cases hb
  | cons p rest ih =>
    intro b hb hnd
    rw [List.map_cons, List.nodup_cons] at hnd
    rw [List.map_cons, objLookup_cons]
    rcases List.mem_cons.mp hb with rfl | hb'
    · rw [if_pos rfl]
    · rw [if_neg ?_]
      · exact ih b hb' hnd.2
      · intro hh
        exact hnd.1 (hh ▸ List.mem_map_of_mem kf hb')

/-! ## Claims -/

/-- C3: for every request to the protected route in which the `x-client-id`
header or the `x-client-secret` header is absent, the authentication
middleware responds 401 with a JSON error body and short-circuits: the
pipeline's response to such a `GET /api/assets` request is that 401 for every
registry and every disk, regardless of whether the supplied id would
otherwise be valid. -/
theorem claim_C3 (registry : List (String × Client)) (req : Request)
    (h : headerVal req "x-client-id" = none ∨
      headerVal req "x-client-secret" = none) :
    authenticateClient registry req =
      .reject ⟨401, .jsonError "Missing authentication headers"⟩ ∧
    (∀ (cfg : Config) (disk : Disk) (hits : Nat), cfg.registry = registry →
      req.method = "GET" → req.pathSegs = ["api", "assets"] →
      hits < RATE_MAX →
      (handle cfg disk req hits).1.res =
        ⟨401, .jsonError "Missing authentication headers"⟩) := by
  have hauth : authenticateClient registry req =
      .reject ⟨401, .jsonError "Missing authentication headers"⟩ := by
    apply authenticateClient_missing
    rcases h with h | h
    · left
      rw [h]
      rfl
    · right
      rw [h]
      rfl
  refine ⟨hauth, ?_⟩
  intro cfg disk hits hreg hm hp hrl
  rw [handle_not_options cfg disk req hits (by rw [hm]; decide) hrl]
  show route cfg disk req = _
  rw [route_api cfg disk req hm hp, hreg, hauth]

/-- C3 witness: over the one-client registry, the request with a valid secret
but no id header is rejected 401 by the middleware and by the pipeline. -/
theorem claim_C3_witness :
    authenticateClient regW apiReqNoIdW =
      .reject ⟨401, .jsonError "Missing authentication headers"⟩ ∧
    (handle cfgW diskW apiReqNoIdW 0).1.res =
      ⟨401, .jsonError "Missing authentication headers"⟩ := by
  have h := claim_C3 regW apiReqNoIdW (Or.inl rfl)
  exact ⟨h.1, h.2 cfgW diskW 0 rfl rfl rfl (by decide)⟩

/-- C10: a credential header that is present with the empty string as value
is treated as missing: authentication responds 401, not 403, even when the
other header carries valid credentials. -/
theorem claim_C10 (registry : List (String × Client)) (req : Request)
    (h : headerVal req "x-client-id" = some "" ∨
      headerVal req "x-client-secret" = some "") :
    authenticateClient registry req =
      .reject ⟨401, .jsonError "Missing authentication headers"⟩ ∧
    authenticateClient registry req ≠
      .reject ⟨403, .jsonError "Invalid client credentials"⟩ := by
  have hauth : authenticateClient registry req =
      .reject ⟨401, .jsonError "Missing authentication headers"⟩ := by
    apply authenticateClient_missing
    rcases h with h | h
    · left
      rw [h]
      rfl
    · right
      rw [h]
      rfl
  refine ⟨hauth, ?_⟩
  rw [hauth]
  decide

/-- C10 witness: an empty id header with the valid secret of `regW`'s client
is answered 401, not 403. -/
theorem claim_C10_witness :
    authenticateClient regW apiReqEmptyIdW =
      .reject ⟨401, .jsonError "Missing authentication headers"⟩ ∧
    authenticateClient regW apiReqEmptyIdW ≠
      .reject ⟨403, .jsonError "Invalid client credentials"⟩ :=
  claim_C10 regW apiReqEmptyIdW (Or.inl rfl)

/-- C4 counterexample: a request with both headers present — the id empty,
the secret valid — where the empty id is not a registry key: the claim as
stated mandates 403, but the middleware responds 401. -/
theorem claim_C4_counterexample :
    headerVal apiReqEmptyIdW "x-client-id" = some "" ∧
    headerVal apiReqEmptyIdW "x-client-secret" = some "xyz" ∧
    objLookup regW "" = none ∧
    authenticateClient regW apiReqEmptyIdW =
      .reject ⟨401, .jsonError "Missing authentication headers"⟩ ∧
    (⟨401, Body.jsonError "Missing authentication headers"⟩ : HttpRes) ≠
      ⟨403, Body.jsonError "Invalid client credentials"⟩ := by
  refine ⟨rfl, rfl, rfl, by decide, by decide⟩

/-- C4 (amended: both headers present with nonempty values): when the id is
not a registry key, or the stored secret differs from the supplied one, the
middleware rejects with 403 and a JSON error body; otherwise it attaches the
resolved client and proceeds. -/
theorem claim_C4 (registry : List (String × Client)) (req : Request)
    (cid sec : String)
    (hid : headerVal req "x-client-id" = some cid) (hc : cid ≠ "")
    (hsec : headerVal req "x-client-secret" = some sec) (hs : sec ≠ "") :
    (objLookup registry cid = none →
      authenticateClient registry req =
        .reject ⟨403, .jsonError "Invalid client credentials"⟩) ∧
    (∀ client, objLookup registry cid = some client → client.secret ≠ sec →
      authenticateClient registry req =
        .reject ⟨403, .jsonError "Invalid client credentials"⟩) ∧
    (∀ client, objLookup registry cid = some client → client.secret = sec →
      authenticateClient registry req = .proceed client) := by
  have hmain := authenticateClient_present registry req cid sec hid hc hsec hs
  refine ⟨?_, ?_, ?_⟩
  · intro hnone
    rw [hmain, hnone]
  · intro client hcl hne
    rw [hmain, hcl]
    exact if_pos hne
  · intro client hcl he
    rw [hmain, hcl]
    exact if_neg (fun hh => hh he)

/-- C4 witness: the correct id/secret pair for `regW` authenticates and
attaches the resolved client. -/
theorem claim_C4_witness :
    authenticateClient regW apiReqW = .proceed acmeW :=
  (claim_C4 regW apiReqW "abc" "xyz" rfl (by decide) rfl (by decide)).2.2
    acmeW rfl rfl

/-- C5: `loadClients` raises exactly when some configured name lacks an id or
secret value; on success, with pairwise-distinct configured ids, the returned
mapping binds each client's id to its name, secret and
`assetDir = ASSETS_ROOT/name`. -/
theorem claim_C5 (env : List (String × String)) (root : String) :
    ((∃ e, loadClients env root = .error e) ↔
      ∃ n ∈ parseClientList env, lacksCredentials env n = true) ∧
    (∀ reg, loadClients env root = .ok reg →
      ((parseClientList env).map (idOf env)).Nodup →
      ∀ n ∈ parseClientList env,
        objLookup reg (idOf env n) =
          some ⟨n, secretOf env n, root ++ "/" ++ n⟩) := by
  refine ⟨loadClientsAux_error_iff env root (parseClientList env) [], ?_⟩
  intro reg hok hnd n hn
  exact loadClientsAux_lookup env root (parseClientList env) [] reg hok hnd n hn

/-- C5 witness: on the scenario environment, `loadClients` succeeds and binds
id `abc` to client `acme` with secret `xyz` and asset directory `/r/acme`. -/
theorem claim_C5_witness :
    objLookup regW (idOf envW "acme") =
      some ⟨"acme", secretOf envW "acme", "/r" ++ "/" ++ "acme"⟩ :=
  (claim_C5 envW "/r").2 regW rfl (by decide) "acme" (by decide)

/-- C7 counterexample: an OPTIONS request whose Origin is not in the
allow-list is still answered 204 with no body (and no CORS headers) instead
of receiving default handling (the pipeline's default is 404). -/
theorem claim_C7_counterexample :
    (handle cfgW diskW optionsEvilW 0).1 = ⟨⟨204, .empty⟩, false⟩ ∧
    corsAllows cfgW.allowedOrigins (headerVal optionsEvilW "origin") = false ∧
    (204 : Nat) ≠ 404 := by
  refine ⟨by decide, rfl, by decide⟩

/-- C7 (amended): every OPTIONS request is answered 204 with no body,
whatever its Origin; the permissive CORS headers are set exactly when the
CORS logic permits the origin (absent origin, or one in the allow-list). -/
theorem claim_C7 (cfg : Config) (disk : Disk) (req : Request) (hits : Nat)
    (h : req.method = "OPTIONS") :
    handle cfg disk req hits =
      (⟨⟨204, .empty⟩,
        corsAllows cfg.allowedOrigins (headerVal req "origin")⟩, hits) :=
  handle_options cfg disk req hits h

/-- C7 witness: a preflight from an allowed origin gets 204 with the CORS
headers set. -/
theorem claim_C7_witness :
    handle cfgW diskW optionsOkW 3 =
      (⟨⟨204, .empty⟩,
        corsAllows cfgW.allowedOrigins (headerVal optionsOkW "origin")⟩, 3) :=
  claim_C7 cfgW diskW optionsOkW 3 rfl

/-- C9: every OPTIONS request is answered 204 by the CORS middleware before
the rate limiter and the routes run: the hit count is left unchanged, the
response is never 429, and the response does not depend on the registry, so
`authenticateClient` is never consulted. -/
theorem claim_C9 (cfg : Config) (disk : Disk) (req : Request) (hits : Nat)
    (h : req.method = "OPTIONS") :
    (handle cfg disk req hits).1.res = ⟨204, .empty⟩ ∧
    (handle cfg disk req hits).2 = hits ∧
    (handle cfg disk req hits).1.res.status ≠ 429 ∧
    ∀ registry' : List (String × Client),
      (handle (⟨cfg.allowedOrigins, registry'⟩ : Config) disk req hits).1.res =
        ⟨204, .empty⟩ := by
  rw [handle_options cfg disk req hits h]
  refine ⟨rfl, rfl, show (204 : Nat) ≠ 429 by decide, ?_⟩
  intro registry'
  rw [handle_options _ disk req hits h]

/-- C9 witness: with the hit count already far past the window cap, a
preflight is still answered 204 and the count is unchanged. -/
theorem claim_C9_witness :
    (handle cfgW diskW optionsEvilW 500).1.res = ⟨204, .empty⟩ ∧
    (handle cfgW diskW optionsEvilW 500).2 = 500 ∧
    (handle cfgW diskW optionsEvilW 500).1.res.status ≠ 429 ∧
    ∀ registry' : List (String × Client),
      (handle (⟨cfgW.allowedOrigins, registry'⟩ : Config) diskW
        optionsEvilW 500).1.res = ⟨204, .empty⟩ :=
  claim_C9 cfgW diskW optionsEvilW 500 rfl

/-- C6: for an authenticated `GET /api/assets` whose resolved client's asset
directory does not exist on disk, the handler returns 200 with an empty JSON
mapping, independently of any tree contents; when the directory exists, it
returns the index built by `buildAssetIndex`. -/
theorem claim_C6 (cfg : Config) (disk : Disk) (req : Request) (client : Client)
    (hits : Nat)
    (hm : req.method = "GET") (hp : req.pathSegs = ["api", "assets"])
    (hauth : authenticateClient cfg.registry req = .proceed client)
    (hrl : hits < RATE_MAX) :
    (dLookup disk client.assetDir = none →
      (handle cfg disk req hits).1.res = ⟨200, .jsonIndex []⟩) ∧
    (∀ entries, dLookup disk client.assetDir = some entries →
      (handle cfg disk req hits).1.res =
        ⟨200, .jsonIndex (buildAssetIndex req.protocol req.host
          client.name entries)⟩) := by
  have h1 := handle_not_options cfg disk req hits (by rw [hm]; decide) hrl
  have h2 := route_api cfg disk req hm hp
  constructor
  · intro hnone
    rw [h1]
    show route cfg disk req = _
    rw [h2, hauth]
    show apiAssetsHandler disk req client = _
    simp only [apiAssetsHandler]
    rw [hnone]
  · intro entries hsome
    rw [h1]
    show route cfg disk req = _
    rw [h2, hauth]
    show apiAssetsHandler disk req client = _
    simp only [apiAssetsHandler]
    rw [hsome]

/-- C6 witness: with no `/r/acme` directory on disk the authenticated index
request yields `200 {}`; with the directory present it yields the built
index. -/
theorem claim_C6_witness :
    (handle cfgW [] apiReqW 0).1.res = ⟨200, .jsonIndex []⟩ ∧
    (handle cfgW diskW apiReqW 0).1.res =
      ⟨200, .jsonIndex (buildAssetIndex "http" "h" "acme" treeW)⟩ := by
  constructor
  · exact (claim_C6 cfgW [] apiReqW acmeW 0 rfl rfl (by decide)
      (by decide)).1 rfl
  · exact (claim_C6 cfgW diskW apiReqW acmeW 0 rfl rfl (by decide)
      (by decide)).2 treeW rfl

/-- C8: on `GET /assets/{seg}/...` the path segment is resolved against the
registry values by name with `find?` (first match in registry order); when no
client has that name the response is 404 for every disk, otherwise the
response is exactly static service from that client's asset directory, and a
200 with file bytes can only arise from a file resolved inside that
directory. -/
theorem claim_C8 (cfg : Config) (disk : Disk) (req : Request) (seg : String)
    (rest : List String) (hits : Nat)
    (hm : req.method = "GET") (hp : req.pathSegs = "assets" :: seg :: rest)
    (hrl : hits < RATE_MAX) :
    ((objValues cfg.registry).find? (fun c => c.name = seg) = none →
      ∀ disk' : Disk,
        (handle cfg disk' req hits).1.res = ⟨404, .text "Not Found"⟩) ∧
    (∀ client,
      (objValues cfg.registry).find? (fun c => c.name = seg) = some client →
      (handle cfg disk req hits).1.res =
        (match dLookup disk client.assetDir with
          | none => ⟨404, .empty⟩
          | some entries =>
            match resolvePath entries rest with
            | some bytes => ⟨200, .fileContent bytes⟩
            | none => ⟨404, .empty⟩)) ∧
    (∀ bytes, (handle cfg disk req hits).1.res = ⟨200, .fileContent bytes⟩ →
      ∃ client entries,
        (objValues cfg.registry).find? (fun c => c.name = seg) = some client ∧
        dLookup disk client.assetDir = some entries ∧
        resolvePath entries rest = some bytes) := by
  have hro : ∀ d : Disk, (handle cfg d req hits).1.res =
      staticHandler cfg.registry d seg rest req.method := by
    intro d
    rw [handle_not_options cfg d req hits (by rw [hm]; decide) hrl]
    show route cfg d req = _
    rw [route_static_seg cfg d req seg rest hp]
  have hc1 : (objValues cfg.registry).find? (fun c => c.name = seg) = none →
      ∀ disk' : Disk,
        (handle cfg disk' req hits).1.res = ⟨404, .text "Not Found"⟩ := by
    intro hnone d
    rw [hro d]
    simp only [staticHandler]
    rw [hnone]
  have hc2a : ∀ client entries,
      (objValues cfg.registry).find? (fun c => c.name = seg) = some client →
      dLookup disk client.assetDir = some entries →
      (handle cfg disk req hits).1.res =
        (match resolvePath entries rest with
          | some bytes => ⟨200, .fileContent bytes⟩
          | none => ⟨404, .empty⟩) := by
    intro client entries hsome hdl
    rw [hro disk,
      staticHandler_found cfg.registry disk seg rest req.method client hsome,
      hdl, hm]
    rfl
  have hc2b : ∀ client,
      (objValues cfg.registry).find? (fun c => c.name = seg) = some client →
      dLookup disk client.assetDir = none →
      (handle cfg disk req hits).1.res = ⟨404, .empty⟩ := by
    intro client hsome hdl
    rw [hro disk,
      staticHandler_found cfg.registry disk seg rest req.method client hsome,
      hdl]
  refine ⟨hc1, ?_, ?_⟩
  · intro client hsome
    rcases hdl : dLookup disk client.assetDir with _ | entries
    · rw [hc2b client hsome hdl]
    · rw [hc2a client entries hsome hdl]
  · intro bytes hbytes
    rcases hfind : (objValues cfg.registry).find? (fun c => c.name = seg)
      with _ | client
    · exfalso
      have h404 := hc1 hfind disk
      rw [hbytes] at h404
      simp at h404
    · rcases hdl : dLookup disk client.assetDir with _ | entries
      · have h2 := hc2b client hfind hdl
        rw [hbytes] at h2
        simp at h2
      · have h2 := hc2a client entries hfind hdl
        rw [hbytes] at h2
        rcases hres : resolvePath entries rest with _ | b
        · rw [hres] at h2
          simp at h2
        · rw [hres] at h2
          have hb : bytes = b := by simpa using h2
          exact ⟨client, entries, hfind, hdl, by rw [hres, hb]⟩

/-- C8 witness: an unknown client name yields 404; the known client `acme`
serves the nested file's bytes. -/
theorem claim_C8_witness :
    (handle cfgW diskW staticReqUnknownW 0).1.res = ⟨404, .text "Not Found"⟩ ∧
    (handle cfgW diskW staticReqW 0).1.res = ⟨200, .fileContent [7]⟩ := by
  constructor
  · exact (claim_C8 cfgW diskW staticReqUnknownW "nope" ["x.png"] 0 rfl rfl
      (by decide)).1 (by decide) diskW
  · have h := (claim_C8 cfgW diskW staticReqW "acme" ["sub", "img.png"] 0 rfl
      rfl (by decide)).2.1 acmeW (by decide)
    rw [h]
    decide

/-- With pairwise-distinct stripped keys, the built index is exactly the
key/URL pair list over the walked files. -/
theorem buildAssetIndex_eq_map (protocol host clientName : String)
    (es : List Entry) (hwf : wellFormed es = true)
    (hnd : ((walkFilesSeg es).map
      (fun pr => stripExt (joinSegs pr.1))).Nodup) :
    buildAssetIndex protocol host clientName es =
      (walkFilesSeg es).map (fun pr =>
        (stripExt (joinSegs pr.1),
          urlOf protocol host clientName (joinSegs pr.1))) := by
  rw [buildAssetIndex, walkEntries_eq_foldl protocol host clientName "" [] es hwf]
  have hfold := foldl_objInsert_fresh
    (fun pr : List String × List Nat => stripExt (joinSegs pr.1))
    (fun pr : List String × List Nat =>
      urlOf protocol host clientName (joinSegs pr.1))
    (walkFilesSeg es) [] hnd (fun b _ => by simp [objKeys])
  rw [List.nil_append] at hfold
  rw [← hfold]
  rfl

/-- Splitting the literal `/assets/` of a built URL at the path joins. -/
theorem url_path_split (A n J : String) :
    A ++ "/assets/" ++ n ++ "/" ++ J =
      A ++ "/" ++ ("assets" ++ "/" ++ (n ++ "/" ++ J)) := by
  have h1 : ("/assets/" : String) = "/" ++ ("assets" ++ "/") := by decide
  rw [h1]
  simp only [String.append_assoc]

/-- C2 counterexample: a file named `file.` keeps its trailing dot in the
index key, while the claim's stated rule (drop the text after the last dot
of the final segment, as its own `a.b.txt ↦ a.b` example fixes the reading)
yields `file`. -/
theorem claim_C2_counterexample :
    buildAssetIndex "http" "h" "acme" treeC2X =
      [("file.", "http://h/assets/acme/file.")] ∧
    specStripPathLiteral "file." = "file" ∧
    ("file." : String) ≠ "file" := by
  refine ⟨by decide, by decide, by decide⟩

/-- C2 (amended: the extension is stripped only when at least one character
follows the last dot; a name ending in a dot is unchanged): the walk adds for
every enumerated file exactly one entry, keyed by its `/`-joined relative
path with the final extension stripped per the amended rule, valued by
`{scheme}://{host}/assets/{clientName}/{relativePath}` with the extension
retained; and the code's key computation agrees with the amended spec
wording on every path. -/
theorem claim_C2 (protocol host clientName : String) (es : List Entry)
    (hwf : wellFormed es = true)
    (hnd : ((walkFilesSeg es).map
      (fun pr => stripExt (joinSegs pr.1))).Nodup) :
    buildAssetIndex protocol host clientName es =
      (walkFilesSeg es).map (fun pr =>
        (stripExt (joinSegs pr.1),
          urlOf protocol host clientName (joinSegs pr.1))) ∧
    (∀ s : String, stripExt s = specStripPath s) :=
  ⟨buildAssetIndex_eq_map protocol host clientName es hwf hnd,
    stripExt_eq_specStripPath⟩

/-- C2 witness: on a tree with a nested `sub/dir/img.png`, a multi-dot
`a.b.txt` and an extensionless `noext`, the index is exactly the walked list
with stripped keys and full URLs. -/
theorem claim_C2_witness :
    buildAssetIndex "http" "h" "acme" treeC2W =
      (walkFilesSeg treeC2W).map (fun pr =>
        (stripExt (joinSegs pr.1),
          urlOf "http" "h" "acme" (joinSegs pr.1))) ∧
    (∀ s : String, stripExt s = specStripPath s) :=
  claim_C2 "http" "h" "acme" treeC2W (by decide) (by decide)

/-- C1 counterexample: with two files `a.jpg` and `a.png` whose stripped keys
collide, the correctly authenticated index response contains a single entry
whose URL is the later file's, so the earlier regular file `a.jpg` — although
enumerated by the walk — has no value URL in the mapping, contradicting the
claim's quantification over every regular file. -/
theorem claim_C1_counterexample :
    (handle cfgW diskC1X apiReqW 0).1.res =
      ⟨200, .jsonIndex [("a", "http://h/assets/acme/a.png")]⟩ ∧
    (["a.jpg"], [1]) ∈ walkFilesSeg treeC1X ∧
    (buildAssetIndex "http" "h" "acme" treeC1X).all
      (fun p => p.2 ≠ "http://h/assets/acme/a.jpg") = true := by
  refine ⟨by decide, by decide, by decide⟩

/-- C1 (amended: provided no two walked files share a stripped key): for a
registry built by `loadClients`, a client resolved from it, and any regular
file the walk enumerates in that client's existing asset directory, the
correctly authenticated `GET /api/assets` returns 200 with the built index;
that index maps the file's stripped key to a URL whose path is
`/assets/{name}/{relativePath}`; and an unauthenticated GET of that path is
served the file's bytes from the same client's asset directory. -/
theorem claim_C1
    (env : List (String × String)) (root : String)
    (registry : List (String × Client)) (allowed : List String) (disk : Disk)
    (cid : String) (client : Client) (entries : List Entry)
    (segs : List String) (content : List Nat)
    (apiReq staticReq : Request) (hits hits2 : Nat)
    (hload : loadClients env root = .ok registry)
    (hlook : objLookup registry cid = some client)
    (hdisk : dLookup disk client.assetDir = some entries)
    (hwf : wellFormed entries = true)
    (hmem : (segs, content) ∈ walkFilesSeg entries)
    (hnd : ((walkFilesSeg entries).map
      (fun pr => stripExt (joinSegs pr.1))).Nodup)
    (hm1 : apiReq.method = "GET") (hp1 : apiReq.pathSegs = ["api", "assets"])
    (hid : headerVal apiReq "x-client-id" = some cid)
    (hsec : headerVal apiReq "x-client-secret" = some client.secret)
    (hrl1 : hits < RATE_MAX)
    (hm2 : staticReq.method = "GET")
    (hp2 : staticReq.pathSegs = "assets" :: client.name :: segs)
    (hrl2 : hits2 < RATE_MAX) :
    (handle ⟨allowed, registry⟩ disk apiReq hits).1.res =
      ⟨200, .jsonIndex (buildAssetIndex apiReq.protocol apiReq.host
        client.name entries)⟩ ∧
    objLookup (buildAssetIndex apiReq.protocol apiReq.host client.name entries)
      (stripExt (joinSegs segs)) =
      some (urlOf apiReq.protocol apiReq.host client.name (joinSegs segs)) ∧
    urlOf apiReq.protocol apiReq.host client.name (joinSegs segs) =
      apiReq.protocol ++ "://" ++ apiReq.host ++ "/" ++
        joinSegs ("assets" :: client.name :: segs) ∧
    (handle ⟨allowed, registry⟩ disk staticReq hits2).1.res =
      ⟨200, .fileContent content⟩ := by
  -- invariants of a loadClients registry
  have hmemreg : (cid, client) ∈ registry :=
    objLookup_some_mem registry cid client hlook
  have hinv := loadClientsAux_inv env root (parseClientList env) [] registry
    hload (by intro p hp; cases hp)
  have hcid : cid ≠ "" := (hinv (cid, client) hmemreg).1
  have hsecne : client.secret ≠ "" := (hinv (cid, client) hmemreg).2.1
  have hdir : client.assetDir = root ++ "/" ++ client.name :=
    (hinv (cid, client) hmemreg).2.2
  -- authentication resolves the client
  have hauth : authenticateClient registry apiReq = .proceed client := by
    rw [authenticateClient_present registry apiReq cid client.secret hid hcid
      hsec hsecne, hlook]
    exact if_neg (fun hh => hh rfl)
  have hc1 : (handle ⟨allowed, registry⟩ disk apiReq hits).1.res =
      ⟨200, .jsonIndex (buildAssetIndex apiReq.protocol apiReq.host
        client.name entries)⟩ := by
    rw [handle_not_options _ disk apiReq hits (by rw [hm1]; decide) hrl1]
    show route ⟨allowed, registry⟩ disk apiReq = _
    rw [route_api _ disk apiReq hm1 hp1]
    show (match authenticateClient registry apiReq with
      | .reject r => r
      | .proceed client => apiAssetsHandler disk apiReq client) = _
    rw [hauth]
    show apiAssetsHandler disk apiReq client = _
    simp only [apiAssetsHandler]
    rw [hdisk]
  have hc2 : objLookup (buildAssetIndex apiReq.protocol apiReq.host
      client.name entries) (stripExt (joinSegs segs)) =
      some (urlOf apiReq.protocol apiReq.host client.name (joinSegs segs)) := by
    rw [buildAssetIndex_eq_map apiReq.protocol apiReq.host client.name entries
      hwf hnd]
    exact objLookup_map_key
      (fun pr : List String × List Nat => stripExt (joinSegs pr.1))
      (fun pr : List String × List Nat =>
        urlOf apiReq.protocol apiReq.host client.name (joinSegs pr.1))
      (walkFilesSeg entries) (segs, content) hmem hnd
  have hsegs : segs ≠ [] := walkFilesSeg_ne_nil entries (segs, content) hmem
  have hc3 : urlOf apiReq.protocol apiReq.host client.name (joinSegs segs) =
      apiReq.protocol ++ "://" ++ apiReq.host ++ "/" ++
        joinSegs ("assets" :: client.name :: segs) := by
    rw [joinSegs_cons "assets" (client.name :: segs) (List.cons_ne_nil _ _),
      joinSegs_cons client.name segs hsegs]
    exact url_path_split (apiReq.protocol ++ "://" ++ apiReq.host) client.name
      (joinSegs segs)
  -- the static route resolves the same asset directory by name
  have hvals : client ∈ objValues registry := by
    rw [objValues]
    exact List.mem_map_of_mem (fun p => p.2) hmemreg
  have hfindsome :
      ∃ c', (objValues registry).find? (fun c => c.name = client.name) =
        some c' := by
    rcases h' : (objValues registry).find? (fun c => c.name = client.name)
      with _ | c'
    · exfalso
      have hn := List.find?_eq_none.mp h' client hvals
      simp at hn
    · exact ⟨c', h'⟩
  obtain ⟨c', hc'⟩ := hfindsome
  have hc'name : c'.name = client.name := by
    have := List.find?_some hc'
    simpa using this
  have hc'mem : c' ∈ objValues registry := List.mem_of_find?_eq_some hc'
  have hc'dir : c'.assetDir = client.assetDir := by
    rw [objValues] at hc'mem
    rcases List.mem_map.mp hc'mem with ⟨p, hp, hpc⟩
    have hinvp := (hinv p hp).2.2
    rw [hpc] at hinvp
    rw [hinvp, hc'name, ← hdir]
  have hres : resolvePath entries segs = some content :=
    resolvePath_of_walk entries hwf (segs, content) hmem
  have hc4 : (handle ⟨allowed, registry⟩ disk staticReq hits2).1.res =
      ⟨200, .fileContent content⟩ := by
    rw [handle_not_options _ disk staticReq hits2 (by rw [hm2]; decide) hrl2]
    show route ⟨allowed, registry⟩ disk staticReq = _
    rw [route_static_seg _ disk staticReq client.name segs hp2]
    show staticHandler registry disk client.name segs staticReq.method = _
    rw [staticHandler_found registry disk client.name segs staticReq.method
      c' hc', hc'dir, hdisk, hm2]
    show (match resolvePath entries segs with
      | some bytes => (⟨200, Body.fileContent bytes⟩ : HttpRes)
      | none => ⟨404, Body.empty⟩) = _
    rw [hres]
  exact ⟨hc1, hc2, hc3, hc4⟩

/-- C1 witness: for the scenario configuration and the nested file
`sub/img.png`, the authenticated index request returns the built index, the
index maps `sub/img` to `http://h/assets/acme/sub/img.png`, that URL's path
is `/assets/acme/sub/img.png`, and the unauthenticated static GET of it is
served the original bytes. -/
theorem claim_C1_witness :
    (handle ⟨["http://ok.example"], regW⟩ diskW apiReqW 0).1.res =
      ⟨200, .jsonIndex (buildAssetIndex apiReqW.protocol apiReqW.host
        acmeW.name treeW)⟩ ∧
    objLookup (buildAssetIndex apiReqW.protocol apiReqW.host acmeW.name treeW)
      (stripExt (joinSegs ["sub", "img.png"])) =
      some (urlOf apiReqW.protocol apiReqW.host acmeW.name
        (joinSegs ["sub", "img.png"])) ∧
    urlOf apiReqW.protocol apiReqW.host acmeW.name
      (joinSegs ["sub", "img.png"]) =
      apiReqW.protocol ++ "://" ++ apiReqW.host ++ "/" ++
        joinSegs ("assets" :: acmeW.name :: ["sub", "img.png"]) ∧
    (handle ⟨["http://ok.example"], regW⟩ diskW staticReqW 0).1.res =
      ⟨200, .fileContent [7]⟩ :=
  claim_C1 envW "/r" regW ["http://ok.example"] diskW "abc" acmeW treeW
    ["sub", "img.png"] [7] apiReqW staticReqW 0 0
    rfl rfl rfl (by decide) (by decide) (by decide)
    rfl rfl rfl rfl (by decide) rfl rfl (by decide)

end EwaFs
